import Mathlib

/-!
# Data Quality Intelligence Studio — verification of the core engine

Shallow embedding of the analytical core of the Data-Quality-Intelligence-Studio
repository: the scoring service (`modules/reporting_core.py`), the rule executor
(`modules/data_quality_core.py`) and the duplicate-detection / survivorship /
case-management engine (`modules/case_management.py`).

Datasets are modelled as lists of rows whose cells are `Option String`
(`none` = pandas `NaN`); row identity is the positional index, as in the
source (a default `RangeIndex`).  Fractional quantities (scores, similarity
ratios) are modelled as rationals.
-/

/-- A dataset cell: `none` models a pandas null (`NaN`), `some s` a string value. -/
abbrev Value := Option String

/-- Python whitespace as stripped by `str.strip()`. -/
def isPySpace (c : Char) : Bool :=
  c = ' ' || c = '\t' || c = '\n' || c = '\r' || c = '\x0b' || c = '\x0c'

/-- Python `str.strip()` on the character list of a string. -/
def pyStripChars (l : List Char) : List Char :=
  ((l.dropWhile isPySpace).reverse.dropWhile isPySpace).reverse

/-- Python `str.strip()`. -/
def pyStrip (s : String) : String := String.mk (pyStripChars s.data)

/-- Python `str.lower()` (ASCII case folding, which covers the values these
rules compare against). -/
def pyLower (s : String) : String := String.mk (s.data.map Char.toLower)

/-- `RuleExecutorEngine._is_null_or_empty` (data_quality_core.py):
`value is None or (isinstance(value, float) and pd.isna(value))
 or str(value).strip() == "" or str(value).lower() == "nan"`. -/
def _is_null_or_empty (v : Value) : Bool :=
  match v with
  | none => true
  | some s => pyStrip s = "" || pyLower s = "nan"

/-- Distinct elements of a list in first-occurrence order (the insertion order
of a pandas hash table, used to model `value_counts` key order before sorting). -/
def firstOccs (l : List String) : List String :=
  l.foldl (fun acc k => if k ∈ acc then acc else acc ++ [k]) []

theorem mem_firstOccs_aux (l : List String) (acc : List String) (k : String) :
    k ∈ l.foldl (fun acc k => if k ∈ acc then acc else acc ++ [k]) acc ↔
      k ∈ acc ∨ k ∈ l := by
  induction l generalizing acc with
  | nil => simp
  | cons x xs ih =>
    simp only [List.foldl_cons]
    by_cases hx : x ∈ acc
    · simp only [if_pos hx, ih]
      constructor
      · rintro (h | h)
        · exact Or.inl h
        · exact Or.inr (List.mem_cons_of_mem _ h)
      · rintro (h | h)
        · exact Or.inl h
        · rcases List.mem_cons.mp h with rfl | h
          · exact Or.inl hx
          · exact Or.inr h
    · simp only [if_neg hx, ih, List.mem_append, List.mem_singleton, List.mem_cons]
      tauto

theorem mem_firstOccs (l : List String) (k : String) :
    k ∈ firstOccs l ↔ k ∈ l := by
  unfold firstOccs
  rw [mem_firstOccs_aux]
  simp

/-- Zero padding of `f"{n:04d}"`: pad the decimal representation to width 4. -/
def pad4 (n : Nat) : String :=
  let s := toString n
  String.mk (List.replicate (4 - s.length) '0') ++ s

/-- Round a rational to 2 decimal places (Python's `round(x, 2)`). -/
def round2 (q : ℚ) : ℚ := (round (q * 100) : ℤ) / 100

/-- Round a rational to 3 decimal places (Python's `round(x, 3)`). -/
def round3 (q : ℚ) : ℚ := (round (q * 1000) : ℤ) / 1000

/-! ## Scoring service — `ScoringService.calculate_overall_score`
(reporting_core.py lines 32–38).  The annotated results table is represented by
the one field the function reads, `"Count of issues"`, per row. -/

/-- One row of the annotated results table, reduced to the fields the scoring
service reads. -/
structure ResultRow where
  countOfIssues : Nat
deriving DecidableEq, Repr

/-- `ScoringService.calculate_overall_score`:
`total = len(results_df); if total == 0: return 0.0;
 clean = len(results_df[results_df["Count of issues"] == 0]);
 return round((clean / total) * 100, 2)`. -/
def calculate_overall_score (results : List ResultRow) : ℚ :=
  let total := results.length
  if total = 0 then 0
  else
    let clean := (results.filter (fun r => r.countOfIssues = 0)).length
    round2 ((clean : ℚ) / (total : ℚ) * 100)

/-! ## Rule executor — single-column uniqueness
(`RuleExecutorEngine._precompute_duplicates`, data_quality_core.py lines
224–233, and the `uniqueness` branch of `_execute_single_rule`, lines 321–322).
A column is a list of cells; the row index is the position. -/

/-- Pandas `Series.value_counts()` restricted to what `_precompute_duplicates`
reads from it: each distinct non-null value paired with its occurrence count
(null cells are excluded by `value_counts`, which drops `NaN` by default). -/
def value_counts (col : List Value) : List (String × Nat) :=
  (firstOccs (col.filterMap id)).map (fun v => (v, col.count (some v)))

/-- `RuleExecutorEngine._precompute_duplicates`, for one column:
`value_counts = self.df[col].value_counts();
 dup_vals = value_counts[value_counts > 1].index.tolist();
 dup_indices = set(); for val in dup_vals:
   if not self._is_null_or_empty(val):
     dup_indices.update(self.df[self.df[col] == val].index.tolist())`. -/
def _precompute_duplicates (col : List Value) : List Nat :=
  let vcs := value_counts col
  let dupVals := ((vcs.filter (fun p => 1 < p.2)).map Prod.fst).filter
    (fun v => !_is_null_or_empty (some v))
  dupVals.flatMap (fun v =>
    (List.range col.length).filter (fun i => col.getD i none = some v))

/-- The `uniqueness` branch of `RuleExecutorEngine._execute_single_rule`:
`passed = row_idx not in self.duplicate_cache.get(column, set())`; the rule
fails exactly when the row index is in the precomputed duplicate set. -/
def uniqueness_rule_fails (col : List Value) (i : Nat) : Bool :=
  i ∈ _precompute_duplicates col

theorem getD_some_lt_length (col : List Value) (i : Nat) (s : String)
    (h : col.getD i none = some s) : i < col.length := by
  by_contra hlt
  rw [List.getD_eq_default] at h
  · exact Option.noConfusion h
  · omega

/-- C1: For every annotated results table, `calculate_overall_score` returns
100 times the number of rows whose `"Count of issues"` field equals 0, divided
by the total number of rows, rounded to 2 decimals; and for an empty (zero-row)
table it returns exactly 0, not an error value. -/
theorem C1_overall_score (results : List ResultRow) :
    (results ≠ [] →
      calculate_overall_score results =
        round2 (100 * (results.countP (fun r => r.countOfIssues = 0) : ℚ) /
          (results.length : ℚ))) ∧
    calculate_overall_score [] = 0 := by
  constructor
  · intro hne
    unfold calculate_overall_score
    have hlen : results.length ≠ 0 := by
      simpa [List.length_eq_zero] using hne
    simp only [if_neg hlen]
    rw [List.countP_eq_length_filter]
    congr 1
    have : ((results.length : ℚ)) ≠ 0 := by exact_mod_cast hlen
    field_simp
    ring
  · rfl

theorem C1_overall_score_witness :
    ([⟨0⟩, ⟨2⟩, ⟨0⟩] : List ResultRow) ≠ [] ∧
      calculate_overall_score [⟨0⟩, ⟨2⟩, ⟨0⟩] =
        round2 (100 * (([⟨0⟩, ⟨2⟩, ⟨0⟩] : List ResultRow).countP
          (fun r => r.countOfIssues = 0) : ℚ) /
          (([⟨0⟩, ⟨2⟩, ⟨0⟩] : List ResultRow).length : ℚ)) :=
  ⟨by decide, (C1_overall_score [⟨0⟩, ⟨2⟩, ⟨0⟩]).1 (by decide)⟩

theorem mem_precompute_duplicates (col : List Value) (i : Nat) :
    i ∈ _precompute_duplicates col ↔
      ∃ s, col.getD i none = some s ∧ _is_null_or_empty (some s) = false ∧
        2 ≤ col.count (some s) := by
  unfold _precompute_duplicates value_counts
  constructor
  · intro h
    rw [List.mem_flatMap] at h
    obtain ⟨v, hv, hi⟩ := h
    rw [List.mem_filter] at hv
    obtain ⟨hv1, hv2⟩ := hv
    rw [List.mem_map] at hv1
    obtain ⟨p, hp, hpv⟩ := hv1
    rw [List.mem_filter] at hp
    obtain ⟨hp1, hp2⟩ := hp
    rw [List.mem_map] at hp1
    obtain ⟨w, _hw, hwp⟩ := hp1
    rw [List.mem_filter, List.mem_range] at hi
    obtain ⟨_hilt, hival⟩ := hi
    subst hwp
    simp only at hpv
    subst hpv
    refine ⟨w, by simpa using hival, by simpa using hv2, ?_⟩
    simp only [decide_eq_true_eq] at hp2
    omega
  · rintro ⟨s, hval, hnn, hcnt⟩
    have hi : i < col.length := getD_some_lt_length col i s hval
    rw [List.mem_flatMap]
    refine ⟨s, ?_, ?_⟩
    · rw [List.mem_filter]
      refine ⟨?_, by simp [hnn]⟩
      rw [List.mem_map]
      refine ⟨(s, col.count (some s)), ?_, rfl⟩
      rw [List.mem_filter]
      refine ⟨?_, by simp only [decide_eq_true_eq]; omega⟩
      rw [List.mem_map]
      refine ⟨s, ?_, rfl⟩
      rw [mem_firstOccs, List.mem_filterMap]
      refine ⟨some s, ?_, rfl⟩
      have hget : col.getD i none = col[i] := List.getD_eq_getElem col none hi
      rw [hget] at hval
      rw [← hval]
      exact List.getElem_mem hi
    · rw [List.mem_filter, List.mem_range]
      exact ⟨hi, by simpa using hval⟩

/-- C2: for every column and every row index, a `uniqueness` rule fails for
that row if and only if the row's value in the column is a non-null value that
is not blank and not the text `"nan"`, and that exact value occurs in at least
2 rows of the column. -/
theorem C2_uniqueness_flagged_iff (col : List Value) (i : Nat) :
    uniqueness_rule_fails col i = true ↔
      ∃ s, col.getD i none = some s ∧ _is_null_or_empty (some s) = false ∧
        2 ≤ col.count (some s) := by
  unfold uniqueness_rule_fails
  rw [← mem_precompute_duplicates col i]
  simp

/-! ## Duplicate detection — `detect_duplicates` (case_management.py 252–354)

Match-key construction and the exact matching phase.  A row's match values are
the cells of the chosen match columns, in order. -/

/-- Pandas `.astype(str)` on one cell: a null (`NaN`) cell is stringified to
the text `"nan"`; string cells are unchanged. -/
def astype_str (v : Value) : String :=
  match v with
  | none => "nan"
  | some s => s

/-- The per-column normalization of `detect_duplicates` (line 278):
`match_df[col].astype(str).str.strip().str.lower().fillna("")`.  After
`.astype(str)` the column holds no nulls, so the trailing `.fillna("")`
replaces nothing. -/
def normalize_match (v : Value) : String := pyLower (pyStrip (astype_str v))

/-- The `_match_key` of a row (lines 280–282): pipe-join of the normalized
match-column values in the given column order. -/
def match_key (matchVals : List Value) : String :=
  String.intercalate "|" (matchVals.map normalize_match)

/-- Stable insertion into a list of `(key, count)` pairs sorted by count
descending: the new pair goes after every pair with a strictly larger count. -/
def insertByCountDesc (x : String × Nat) : List (String × Nat) → List (String × Nat)
  | [] => [x]
  | y :: ys => if x.2 < y.2 then y :: insertByCountDesc x ys else x :: y :: ys

/-- Stable sort by count descending (`foldr` keeps earlier pairs before later
pairs of equal count). -/
def sortByCountDesc (l : List (String × Nat)) : List (String × Nat) :=
  l.foldr insertByCountDesc []

/-- `key_counts = match_df["_match_key"].value_counts()` (line 287): distinct
keys with their occurrence counts, ordered by count descending — pandas sorts
`value_counts` by frequency; equal counts are kept in first-encounter order. -/
def key_counts (keys : List String) : List (String × Nat) :=
  sortByCountDesc ((firstOccs keys).map (fun k => (k, keys.count k)))

/-- `dup_keys = key_counts[key_counts > 1].index` (line 288). -/
def dup_keys (keys : List String) : List String :=
  ((key_counts keys).filter (fun p => 1 < p.2)).map Prod.fst

/-- `f"DG-{group_id:04d}"` (line 293). -/
def dupGroupId (n : Nat) : String := "DG-" ++ pad4 n

/-- Position of a key in a key list (the value of the loop counter when the
loop at lines 290–299 reaches that key). -/
def keyIndex (k : String) : List String → Option Nat
  | [] => none
  | x :: xs => if x = k then some 0 else (keyIndex k xs).map (· + 1)

/-- Exact-phase group id of row `i` (loop at lines 290–299): the row's key
receives `DG-(p+1)` where `p` is the key's position in `dup_keys`; rows whose
key is not a duplicate key keep a null group id. -/
def exact_group_id (keys : List String) (i : Nat) : Option String :=
  (keyIndex (keys.getD i "") (dup_keys keys)).map (fun p => dupGroupId (p + 1))

/-- The ordering asserted by the claim (spec wording, for comparison with the
source): duplicate keys in order of first encounter in the dataset's row
order. -/
def claimed_dup_keys (keys : List String) : List String :=
  (firstOccs keys).filter (fun k => 1 < keys.count k)

/-- Group-id assignment under the claim's ordering (spec wording). -/
def claimed_exact_group_id (keys : List String) (i : Nat) : Option String :=
  (keyIndex (keys.getD i "") (claimed_dup_keys keys)).map (fun p => dupGroupId (p + 1))

/-- C4 fails on the code: with match keys `a, b, b, b, a` the key `a` is the
first-encountered duplicate key (row 0), so the claim assigns it `DG-0001`;
the code orders `dup_keys` by `value_counts`, i.e. by frequency descending, so
`b` (3 occurrences) gets `DG-0001` and `a` gets `DG-0002`. -/
theorem C4_counterexample :
    exact_group_id ([[some "a"], [some "b"], [some "b"], [some "b"],
        [some "a"]].map match_key) 0 = some "DG-0002" ∧
      claimed_exact_group_id ([[some "a"], [some "b"], [some "b"], [some "b"],
        [some "a"]].map match_key) 0 = some "DG-0001" ∧
      exact_group_id ([[some "a"], [some "b"], [some "b"], [some "b"],
        [some "a"]].map match_key) 0 ≠
        claimed_exact_group_id ([[some "a"], [some "b"], [some "b"], [some "b"],
          [some "a"]].map match_key) 0 := by
  refine ⟨by decide, by decide, by decide⟩

theorem nodup_firstOccs_aux (l acc : List String) (h : acc.Nodup) :
    (l.foldl (fun acc k => if k ∈ acc then acc else acc ++ [k]) acc).Nodup := by
  induction l generalizing acc with
  | nil => simpa using h
  | cons x xs ih =>
    simp only [List.foldl_cons]
    by_cases hx : x ∈ acc
    · rw [if_pos hx]; exact ih acc h
    · rw [if_neg hx]
      refine ih (acc ++ [x]) ?_
      simp only [List.nodup_append, List.nodup_cons, List.not_mem_nil,
        not_false_iff, List.nodup_nil, and_true, true_and, List.disjoint_singleton]
      exact ⟨h, hx⟩

theorem nodup_firstOccs (l : List String) : (firstOccs l).Nodup :=
  nodup_firstOccs_aux l [] List.nodup_nil

theorem perm_insertByCountDesc (x : String × Nat) (l : List (String × Nat)) :
    List.Perm (insertByCountDesc x l) (x :: l) := by
  induction l with
  | nil => rfl
  | cons y ys ih =>
    unfold insertByCountDesc
    by_cases h : x.2 < y.2
    · rw [if_pos h]
      exact (ih.cons y).trans (List.Perm.swap x y ys)
    · rw [if_neg h]

theorem perm_sortByCountDesc (l : List (String × Nat)) :
    List.Perm (sortByCountDesc l) l := by
  induction l with
  | nil => rfl
  | cons x xs ih =>
    unfold sortByCountDesc
    simp only [List.foldr_cons]
    exact (perm_insertByCountDesc x _).trans
      ((ih : List.Perm (List.foldr insertByCountDesc [] xs) xs).cons x)

theorem pairwise_insertByCountDesc (x : String × Nat) (l : List (String × Nat))
    (h : l.Pairwise (fun a b => b.2 ≤ a.2)) :
    (insertByCountDesc x l).Pairwise (fun a b => b.2 ≤ a.2) := by
  induction l with
  | nil => simp [insertByCountDesc]
  | cons y ys ih =>
    rw [List.pairwise_cons] at h
    obtain ⟨hy, hys⟩ := h
    unfold insertByCountDesc
    by_cases hcmp : x.2 < y.2
    · rw [if_pos hcmp, List.pairwise_cons]
      refine ⟨?_, ih hys⟩
      intro z hz
      rcases List.mem_cons.mp ((perm_insertByCountDesc x ys).mem_iff.mp hz) with
        rfl | hzys
      · omega
      · exact hy z hzys
    · rw [if_neg hcmp, List.pairwise_cons]
      refine ⟨?_, List.pairwise_cons.mpr ⟨hy, hys⟩⟩
      intro z hz
      rcases List.mem_cons.mp hz with rfl | hzys
      · omega
      · have := hy z hzys
        omega

theorem pairwise_sortByCountDesc (l : List (String × Nat)) :
    (sortByCountDesc l).Pairwise (fun a b => b.2 ≤ a.2) := by
  induction l with
  | nil => simp [sortByCountDesc]
  | cons x xs ih =>
    unfold sortByCountDesc
    simp only [List.foldr_cons]
    exact pairwise_insertByCountDesc x _ ih

theorem mem_key_counts (keys : List String) (p : String × Nat)
    (h : p ∈ key_counts keys) : p.2 = keys.count p.1 := by
  unfold key_counts at h
  have := (perm_sortByCountDesc _).mem_iff.mp h
  rw [List.mem_map] at this
  obtain ⟨k, _, rfl⟩ := this
  rfl

theorem nodup_dup_keys (keys : List String) : (dup_keys keys).Nodup := by
  have h1 : ((key_counts keys).map Prod.fst).Nodup := by
    have hperm : List.Perm ((key_counts keys).map Prod.fst)
        (((firstOccs keys).map (fun k => (k, keys.count k))).map Prod.fst) :=
      (perm_sortByCountDesc _).map Prod.fst
    have heq : ((firstOccs keys).map (fun k => (k, keys.count k))).map Prod.fst =
        firstOccs keys := by
      rw [List.map_map]
      exact List.map_id'' (fun _ => rfl) _
    rw [heq] at hperm
    exact hperm.nodup_iff.mpr (nodup_firstOccs keys)
  unfold dup_keys
  exact h1.sublist (List.Sublist.map Prod.fst (List.filter_sublist _))

theorem keyIndex_of_get (l : List String) (p : Nat) (hp : p < l.length)
    (k : String) (hnd : l.Nodup) (hk : l.get ⟨p, hp⟩ = k) :
    keyIndex k l = some p := by
  induction l generalizing p with
  | nil => simp at hp
  | cons x xs ih =>
    rw [List.nodup_cons] at hnd
    obtain ⟨hx, hxs⟩ := hnd
    cases p with
    | zero =>
      simp only [List.get] at hk
      unfold keyIndex
      rw [if_pos hk]
    | succ q =>
      have hq : q < xs.length := by simpa using hp
      have hget : xs.get ⟨q, hq⟩ = k := hk
      have hkxs : k ∈ xs := hget ▸ xs.get_mem q hq
      have hxk : x ≠ k := fun he => hx (he ▸ hkxs)
      unfold keyIndex
      rw [if_neg hxk, ih q hq hxs hget]
      rfl

/-- Counts recorded in `dup_keys` are the true occurrence counts and every
`dup_keys` entry occurs more than once. -/
theorem count_of_mem_dup_keys (keys : List String) (k : String)
    (h : k ∈ dup_keys keys) : 1 < keys.count k := by
  unfold dup_keys at h
  rw [List.mem_map] at h
  obtain ⟨p, hp, rfl⟩ := h
  rw [List.mem_filter] at hp
  obtain ⟨hp1, hp2⟩ := hp
  have := mem_key_counts keys p hp1
  simp only [decide_eq_true_eq] at hp2
  omega

/-- C4 amended: in the exact phase, sequential group ids `DG-0001, DG-0002, …`
are assigned to the duplicate match keys in nonincreasing order of each key's
occurrence count (the most frequent duplicate key gets `DG-0001`; equal counts
are ordered by first encounter in this model), not in order of first
encounter: if the key at position `p` of `dup_keys` precedes the key at
position `q`, its count is at least as large, and a row carrying the key at
position `p` is annotated with group id `DG-(p+1)`. -/
theorem C4_amended_group_id_order (keys : List String) (p q i : Nat)
    (hp : p < (dup_keys keys).length) (hq : q < (dup_keys keys).length)
    (hpq : p ≤ q)
    (hki : keys.getD i "" = (dup_keys keys).get ⟨p, hp⟩) :
    keys.count ((dup_keys keys).get ⟨q, hq⟩) ≤
        keys.count ((dup_keys keys).get ⟨p, hp⟩) ∧
      exact_group_id keys i = some (dupGroupId (p + 1)) := by
  constructor
  · rcases Nat.lt_or_ge p q with hlt | hge
    · have hpw : (dup_keys keys).Pairwise (fun a b => keys.count b ≤ keys.count a) := by
        unfold dup_keys
        have hkc : (key_counts keys).Pairwise (fun a b => b.2 ≤ a.2) :=
          pairwise_sortByCountDesc _
        have hf : ((key_counts keys).filter (fun p => 1 < p.2)).Pairwise
            (fun a b => b.2 ≤ a.2) :=
          hkc.sublist (List.filter_sublist _)
        refine (List.pairwise_map).mpr ?_
        refine hf.imp_of_mem ?_
        intro a b ha hb hab
        have hfa : a ∈ key_counts keys :=
          List.mem_of_mem_filter ha
        have hfb : b ∈ key_counts keys :=
          List.mem_of_mem_filter hb
        rw [← mem_key_counts keys a hfa, ← mem_key_counts keys b hfb]
        exact hab
      exact List.pairwise_iff_get.mp hpw ⟨p, hp⟩ ⟨q, hq⟩ hlt
    · have : p = q := by omega
      subst this
      rfl
  · unfold exact_group_id
    rw [keyIndex_of_get (dup_keys keys) p hp _ (nodup_dup_keys keys) hki.symm]
    rfl

theorem C4_amended_group_id_order_witness :
    List.count
        ((dup_keys (List.map match_key [[some "a"], [some "b"], [some "b"],
          [some "b"], [some "a"]])).get ⟨1, by decide⟩)
        (List.map match_key [[some "a"], [some "b"], [some "b"], [some "b"],
          [some "a"]]) ≤
      List.count
        ((dup_keys (List.map match_key [[some "a"], [some "b"], [some "b"],
          [some "b"], [some "a"]])).get ⟨0, by decide⟩)
        (List.map match_key [[some "a"], [some "b"], [some "b"], [some "b"],
          [some "a"]]) ∧
      exact_group_id (List.map match_key [[some "a"], [some "b"], [some "b"],
          [some "b"], [some "a"]]) 1 = some (dupGroupId (0 + 1)) :=
  C4_amended_group_id_order
    (List.map match_key [[some "a"], [some "b"], [some "b"], [some "b"],
      [some "a"]]) 0 1 1 (by decide) (by decide) (by decide) (by decide)

/-- C5 names the intended behavior (nulls become the empty string before key
construction), but the code stringifies first: at a null match cell,
`.astype(str)` has already produced the text `"nan"` when the trailing
`.fillna("")` runs, so a null contributes `"nan"`, never `""`, to the match
key.  Evaluated at the failing input (a row that is null in every match
column). -/
theorem C5_null_key_component :
    normalize_match none = "nan" ∧ ¬ normalize_match none = "" ∧
      match_key [none, none] = "nan|nan" :=
  ⟨by decide, by decide, by decide⟩

/-! ## Recency rank — `detect_duplicates` lines 342–352

With a date/datetime column present:
`result.groupby("_dup_group_id")[date_cols[0]].rank(method="first",
ascending=False).fillna(0).astype(int)` — rows whose group key is null are
dropped by `groupby` and rank `NaN`, as do rows with a null date, and both
become 0 through `fillna(0)`.

With no date column:
`result.groupby("_dup_group_id").cumcount(ascending=False) + 1` — rows whose
group key is null are dropped by `groupby`; their `cumcount` is `NaN` (there
is no `fillna` on this branch), so their `_recency_rank` stays missing. -/

/-- Date-branch recency rank of row `i` over `(group id, date value)` rows. -/
def date_recency_rank (rows : List (Option String × Option ℚ)) (i : Nat) : Int :=
  match rows.getD i (none, none) with
  | (none, _) => 0
  | (some _, none) => 0
  | (some g, some d) =>
    1 + (((List.range rows.length).filter (fun j =>
      decide ((rows.getD j (none, none)).1 = some g) &&
        (match (rows.getD j (none, none)).2 with
         | none => false
         | some d2 => decide (d < d2) || (decide (d2 = d) && decide (j < i))))).length : Int)

/-- No-date-branch recency rank of row `i` over the group-id column:
`cumcount(ascending=False) + 1` within the group, `none` (`NaN`) for rows
outside every group. -/
def nodate_recency_rank (gids : List (Option String)) (i : Nat) : Option Int :=
  match gids.getD i none with
  | none => none
  | some g =>
    some (1 + (((List.range gids.length).filter (fun j =>
      decide (gids.getD j none = some g ∧ i < j))).length : Int))

/-- C7 fails on the code: in the no-date branch a row outside every duplicate
group gets a missing (`NaN`) recency rank, not 0 — the `cumcount` branch has
no `fillna(0)`.  Concrete input: group column `DG-0001, DG-0001, null`,
row 2. -/
theorem C7_counterexample :
    nodate_recency_rank [some "DG-0001", some "DG-0001", none] 2 = none ∧
      ¬ nodate_recency_rank [some "DG-0001", some "DG-0001", none] 2 = some 0 :=
  ⟨rfl, by decide⟩

/-- C7 amended: a row in no duplicate group receives recency rank 0 when a
date/datetime column exists; when none does, it receives a missing (`NaN`)
rank instead, while grouped rows are ranked by reverse encounter order with
the last-encountered member of a group at rank 1. -/
theorem C7_amended_recency_rank (rows : List (Option String × Option ℚ))
    (gids : List (Option String)) (i : Nat) :
    ((rows.getD i (none, none)).1 = none → date_recency_rank rows i = 0) ∧
    (gids.getD i none = none → nodate_recency_rank gids i = none) ∧
    (∀ g, gids.getD i none = some g →
      (∀ j, i < j → ¬ gids.getD j none = some g) →
      nodate_recency_rank gids i = some 1) := by
  refine ⟨?_, ?_, ?_⟩
  · intro h
    unfold date_recency_rank
    rcases hr : rows.getD i (none, none) with ⟨g, d⟩
    rw [hr] at h
    simp only at h
    subst h
    rfl
  · intro h
    unfold nodate_recency_rank
    rw [h]
  · intro g hg hlast
    have hval : nodate_recency_rank gids i =
        some (1 + (((List.range gids.length).filter (fun j =>
          decide (gids.getD j none = some g ∧ i < j))).length : Int)) := by
      unfold nodate_recency_rank
      rw [hg]
    have hnil : ((List.range gids.length).filter (fun j =>
        decide (gids.getD j none = some g ∧ i < j))) = [] := by
      rw [List.filter_eq_nil_iff]
      intro j _
      simp only [decide_eq_true_eq, not_and]
      intro hj hij
      exact hlast j hij hj
    rw [hval, hnil]
    rfl

theorem C7_amended_recency_rank_witness :
    date_recency_rank [(none, none)] 0 = 0 ∧
      nodate_recency_rank [some "DG-0001", some "DG-0001", none] 2 = none ∧
      nodate_recency_rank [some "DG-0001", some "DG-0001", none] 1 = some 1 :=
  ⟨(C7_amended_recency_rank [(none, none)] [] 0).1 rfl,
   (C7_amended_recency_rank [] [some "DG-0001", some "DG-0001", none] 2).2.1 rfl,
   (C7_amended_recency_rank [] [some "DG-0001", some "DG-0001", none] 1).2.2
     "DG-0001" rfl (by
       intro j hj
       rcases j with _ | _ | _ | j
       · omega
       · omega
       · decide
       · rw [List.getD_eq_default]
         · exact fun h => Option.noConfusion h
         · simp)⟩

/-! ## Case lifecycle — `create_case` / `update_case_status`
(case_management.py lines 117–165).  A case is a record of the dictionary
fields; the Python dict key `"type"` is the field `case_type` and `"by"` is
`by_`; timestamps are opaque strings. -/

structure HistEntry where
  ts : String
  action : String
  by_ : String
deriving DecidableEq, Repr

structure Case where
  case_id : String
  title : String
  case_type : String
  priority : String
  status : String
  description : String
  affected_records : Nat
  affected_columns : String
  source : String
  created_at : String
  updated_at : String
  resolved_at : String
  assigned_to : String
  history : List HistEntry
deriving DecidableEq, Repr

/-- `_next_case_id`: bump the counter and format `CASE-{counter:04d}`. -/
def _next_case_id (case_counter : Nat) : Nat × String :=
  (case_counter + 1, "CASE-" ++ pad4 (case_counter + 1))

/-- `create_case` (lines 117–148): a new case starts `Open`, with empty
`resolved_at`/`assigned_to` and a single history entry `"Case created"`. -/
def create_case (case_counter : Nat) (now title ct priority description : String)
    (affected_records : Nat) (affected_columns source : String) : Case :=
  { case_id := (_next_case_id case_counter).2
    title := title
    case_type := ct
    priority := priority
    status := "Open"
    description := description
    affected_records := affected_records
    affected_columns := affected_columns
    source := source
    created_at := now
    updated_at := now
    resolved_at := ""
    assigned_to := ""
    history := [{ ts := now, action := "Case created", by_ := "System" }] }

/-- `update_case_status` (lines 151–165): walk the case list and update the
first case whose id matches (the loop `break`s after the first hit); every
other case is left untouched, and nothing happens when no id matches. -/
def update_case_status (cases : List Case) (case_id new_status note by_ now : String) :
    List Case :=
  match cases with
  | [] => []
  | c :: cs =>
    if c.case_id = case_id then
      { c with
        status := new_status
        updated_at := now
        resolved_at :=
          if new_status = "Resolved" ∨ new_status = "Closed" then now
          else c.resolved_at
        history := c.history ++
          [⟨now,
            "Status changed: " ++ c.status ++ " → " ++ new_status ++
              (if note ≠ "" then " (" ++ note ++ ")" else ""),
            by_⟩] } :: cs
    else c :: update_case_status cs case_id new_status note by_ now

theorem update_case_status_no_match (cases : List Case)
    (cid ns note by_ now : String) (h : ∀ c ∈ cases, c.case_id ≠ cid) :
    update_case_status cases cid ns note by_ now = cases := by
  induction cases with
  | nil => rfl
  | cons c cs ih =>
    simp only [update_case_status]
    rw [if_neg (h c (List.mem_cons_self c cs))]
    rw [ih (fun c' hc' => h c' (List.mem_cons_of_mem c hc'))]

theorem update_case_status_append (pre rest : List Case)
    (cid ns note by_ now : String) (h : ∀ c ∈ pre, c.case_id ≠ cid) :
    update_case_status (pre ++ rest) cid ns note by_ now =
      pre ++ update_case_status rest cid ns note by_ now := by
  induction pre with
  | nil => rfl
  | cons c cs ih =>
    simp only [List.cons_append]
    simp only [update_case_status]
    rw [if_neg (h c (List.mem_cons_self c cs))]
    rw [ih (fun c' hc' => h c' (List.mem_cons_of_mem c hc'))]

/-- C8: `create_case` appends exactly one history entry with action
`"Case created"`; `update_case_status` on an existing case (the first one
carrying the id) appends exactly one additional history entry with the
synthesized `"Status changed: old → new"` description, refreshes
`updated_at`, stamps `resolved_at` exactly when the new status is `Resolved`
or `Closed` (and leaves it untouched otherwise), sets the status to the
requested target unconditionally (no transition between any two states is
ever rejected), and touches no other case. -/
theorem C8_case_lifecycle (case_counter : Nat)
    (now title ct prio descr : String) (ar : Nat) (ac src : String)
    (pre post : List Case) (c : Case) (cid ns note by_ now2 : String)
    (hpre : ∀ c' ∈ pre, c'.case_id ≠ cid) (hc : c.case_id = cid) :
    (create_case case_counter now title ct prio descr ar ac src).history =
      [{ ts := now, action := "Case created", by_ := "System" }] ∧
    ∃ c', update_case_status (pre ++ c :: post) cid ns note by_ now2 =
        pre ++ c' :: post ∧
      c'.status = ns ∧
      c'.updated_at = now2 ∧
      ((ns = "Resolved" ∨ ns = "Closed") → c'.resolved_at = now2) ∧
      (¬ (ns = "Resolved" ∨ ns = "Closed") → c'.resolved_at = c.resolved_at) ∧
      c'.history = c.history ++
        [⟨now2,
          "Status changed: " ++ c.status ++ " → " ++ ns ++
            (if note ≠ "" then " (" ++ note ++ ")" else ""),
          by_⟩] := by
  refine ⟨rfl, ?_⟩
  rw [update_case_status_append pre (c :: post) cid ns note by_ now2 hpre]
  refine ⟨{ c with
      status := ns
      updated_at := now2
      resolved_at :=
        if ns = "Resolved" ∨ ns = "Closed" then now2
        else c.resolved_at
      history := c.history ++
        [⟨now2,
          "Status changed: " ++ c.status ++ " → " ++ ns ++
            (if note ≠ "" then " (" ++ note ++ ")" else ""),
          by_⟩] },
    ?_, rfl, rfl, ?_, ?_, rfl⟩
  · simp only [update_case_status]
    rw [if_pos hc]
  · intro hterm
    simp only [if_pos hterm]
  · intro hterm
    simp only [if_neg hterm]

theorem C8_case_lifecycle_witness :
    (create_case 0 "2025-01-01 00:00" "t" "Other" "Medium" "" 0 "" "Manual").history =
      [{ ts := "2025-01-01 00:00", action := "Case created", by_ := "System" }] ∧
    ∃ c', update_case_status
        ([] ++ create_case 0 "2025-01-01 00:00" "t" "Other" "Medium" "" 0 "" "Manual"
          :: []) "CASE-0001" "Resolved" "" "User" "2025-01-02 00:00" =
        [] ++ c' :: [] ∧
      c'.status = "Resolved" ∧
      c'.updated_at = "2025-01-02 00:00" ∧
      (("Resolved" = "Resolved" ∨ ("Resolved" : String) = "Closed") →
        c'.resolved_at = "2025-01-02 00:00") ∧
      (¬ (("Resolved" : String) = "Resolved" ∨ ("Resolved" : String) = "Closed") →
        c'.resolved_at =
          (create_case 0 "2025-01-01 00:00" "t" "Other" "Medium" "" 0 ""
            "Manual").resolved_at) ∧
      c'.history =
        (create_case 0 "2025-01-01 00:00" "t" "Other" "Medium" "" 0 ""
          "Manual").history ++
        [⟨"2025-01-02 00:00",
          "Status changed: " ++
            (create_case 0 "2025-01-01 00:00" "t" "Other" "Medium" "" 0 ""
              "Manual").status ++ " → " ++ "Resolved" ++
            (if ("" : String) ≠ "" then " (" ++ "" ++ ")" else ""),
          "User"⟩] :=
  C8_case_lifecycle 0 "2025-01-01 00:00" "t" "Other" "Medium" "" 0 "" "Manual"
    [] [] (create_case 0 "2025-01-01 00:00" "t" "Other" "Medium" "" 0 "" "Manual")
    "CASE-0001" "Resolved" "" "User" "2025-01-02 00:00"
    (fun c' hc' => absurd hc' (List.not_mem_nil c')) (by decide)

/-- C10: updating a case id that matches no case in the list changes nothing
and raises no error — `update_case_status` on a non-existent id is a silent
no-op. -/
theorem C10_update_nonexistent_noop (cases : List Case)
    (cid ns note by_ now : String) (h : ∀ c ∈ cases, c.case_id ≠ cid) :
    update_case_status cases cid ns note by_ now = cases :=
  update_case_status_no_match cases cid ns note by_ now h

theorem C10_update_nonexistent_noop_witness :
    update_case_status
        [create_case 0 "2025-01-01 00:00" "t" "Other" "Medium" "" 0 "" "Manual"]
        "CASE-9999" "Closed" "" "User" "2025-01-02 00:00" =
      [create_case 0 "2025-01-01 00:00" "t" "Other" "Medium" "" 0 "" "Manual"] :=
  C10_update_nonexistent_noop
    [create_case 0 "2025-01-01 00:00" "t" "Other" "Medium" "" 0 "" "Manual"]
    "CASE-9999" "Closed" "" "User" "2025-01-02 00:00"
    (by intro c hc; rw [List.mem_singleton] at hc; subst hc; decide)

/-! ## Sandboxed custom expressions —
`RuleExecutorEngine._evaluate_safe_expression` (data_quality_core.py lines
433–446) and the `custom_expression` branch of `_execute_single_rule`
(lines 382–384).  The Python `eval` over the restricted environment is
abstracted as a function that either returns the truthiness of the evaluated
expression or raises (`Except.error`); the token screen and the fail-closed
wrappers are modelled exactly. -/

/-- The forbidden-token blacklist of `_evaluate_safe_expression`. -/
def forbidden_tokens : List String :=
  ["import", "exec", "eval", "__", "open", "file"]

/-- Python `a.startswith(b)` at the character level, used to build the
substring test. -/
def charsPrefixOf : List Char → List Char → Bool
  | [], _ => true
  | _ :: _, [] => false
  | a :: as, b :: bs => a = b && charsPrefixOf as bs

/-- Python substring containment `needle in hay` at the character level. -/
def charsInfixOf (needle : List Char) : List Char → Bool
  | [] => charsPrefixOf needle []
  | b :: bs => charsPrefixOf needle (b :: bs) || charsInfixOf needle bs

/-- `any(kw in expression for kw in [...])`: substring screening. -/
def contains_forbidden (expr : String) : Bool :=
  forbidden_tokens.any (fun kw => charsInfixOf kw.data expr.data)

/-- `_evaluate_safe_expression`: screened expressions return `False` without
being evaluated; `bool(eval(...))` otherwise; any raised error is caught and
returns `False`. -/
def _evaluate_safe_expression (evalFn : String → Except String Bool)
    (expr : String) : Bool :=
  if contains_forbidden expr then false
  else
    match evalFn expr with
    | Except.ok b => b
    | Except.error _ => false

/-- The `custom_expression` branch of `_execute_single_rule`:
`if expression: passed = self._evaluate_safe_expression(value, expression)` —
a missing or empty (falsy) expression leaves the rule passing. -/
def custom_expression_passed (evalFn : String → Except String Bool)
    (expr : Option String) : Bool :=
  match expr with
  | none => true
  | some e => if e = "" then true else _evaluate_safe_expression evalFn e

/-- C9: an expression containing a forbidden token (`import`, `exec`, `eval`,
`__`, `open`, `file`) makes the rule fail without the expression being
executed — the outcome is independent of the evaluator — and an expression
whose evaluation raises any error likewise makes the rule fail (fails
closed); both cases return an ordinary boolean, never an exception (the
embedding is a total function). -/
theorem C9_custom_expression_fails_closed
    (f g : String → Except String Bool) (e msg : String) :
    (contains_forbidden e = true →
      custom_expression_passed f (some e) = false ∧
      custom_expression_passed f (some e) = custom_expression_passed g (some e)) ∧
    (e ≠ "" → f e = Except.error msg →
      custom_expression_passed f (some e) = false) := by
  constructor
  · intro hforb
    by_cases he : e = ""
    · subst he
      exact absurd hforb (by decide)
    · simp only [custom_expression_passed, if_neg he]
      unfold _evaluate_safe_expression
      simp only [if_pos hforb]
      exact ⟨trivial, trivial⟩
  · intro he herr
    simp only [custom_expression_passed, if_neg he]
    unfold _evaluate_safe_expression
    by_cases hforb : contains_forbidden e = true
    · rw [if_pos hforb]
    · rw [if_neg hforb, herr]

theorem C9_custom_expression_fails_closed_witness :
    (custom_expression_passed (fun _ => Except.ok true) (some "value.__class__") =
        false ∧
      custom_expression_passed (fun _ => Except.ok true) (some "value.__class__") =
        custom_expression_passed (fun _ => Except.error "boom")
          (some "value.__class__")) ∧
    custom_expression_passed (fun _ => Except.error "boom") (some "int(value) <") =
      false :=
  ⟨(C9_custom_expression_fails_closed (fun _ => Except.ok true)
      (fun _ => Except.error "boom") "value.__class__" "boom").1 (by decide),
   (C9_custom_expression_fails_closed (fun _ => Except.error "boom")
      (fun _ => Except.ok true) "int(value) <" "boom").2 (by decide) rfl⟩

/-! ## Survivorship — `identify_golden_record` / `build_golden_records_df`
(case_management.py lines 403–445).

A `DupRow` is one row of the duplicate-annotated dataset: `idx` is its pandas
index label, `fields` its non-internal (user) column values in column order,
and the engine's annotation columns are explicit fields.  The pandas
`groupby("_dup_group_id")` drops rows whose group id is null and sorts group
keys; `Series.idxmax`/`idxmin` return the label of the first row attaining
the extremum, skipping nulls. -/

structure DupRow where
  idx : Nat
  fields : List Value
  _dup_group_id : Option String
  _is_duplicate : Bool
  _completeness : ℚ
  _recency_rank : ℚ
deriving DecidableEq, Repr

/-- `Series.idxmax` over a group keyed by `key`: label of the first row
attaining the maximum. -/
def idxmaxBy {β : Type} [LinearOrder β] (key : DupRow → β) :
    List DupRow → Option Nat
  | [] => none
  | r :: rs =>
    some ((rs.foldl (fun best x => if key best < key x then x else best) r).idx)

/-- `Series.idxmin` over a group keyed by `key`: label of the first row
attaining the minimum. -/
def idxminBy {β : Type} [LinearOrder β] (key : DupRow → β) :
    List DupRow → Option Nat
  | [] => none
  | r :: rs =>
    some ((rs.foldl (fun best x => if key x < key best then x else best) r).idx)

/-- First position satisfying a predicate (Python's first hit of a list
comprehension over column names). -/
def firstIdxWhere (p : String → Bool) : List String → Option Nat
  | [] => none
  | x :: xs => if p x then some 0 else (firstIdxWhere p xs).map (· + 1)

/-- The source-like column keywords of the `Source Priority` strategy. -/
def src_keywords : List String := ["source", "system", "origin", "priority"]

/-- `Series.idxmin` on the string column at position `j` (pandas skips null
values; an all-null column makes `idxmin` raise, modelled as `none`). -/
def idxminStrAt (j : Nat) (group : List DupRow) : Option Nat :=
  match group.filter (fun r => (r.fields.getD j none).isSome) with
  | [] => none
  | r :: rs =>
    some ((rs.foldl (fun best x =>
      if (x.fields.getD j none).getD "" < (best.fields.getD j none).getD "" then x
      else best) r).idx)

/-- `identify_golden_record` (lines 403–421).  Returns `none` for the `-1`
sentinel on an empty group and for the `Source Priority` case in which the
first source-like column is entirely null within the group (where pandas
`idxmin` raises instead of returning a label).  The internal annotation
columns never match the source keywords, so only user columns are searched. -/
def identify_golden_record (cols : List String) (group : List DupRow)
    (strategy : String) : Option Nat :=
  if group = [] then none
  else if strategy = "Most Complete" then
    idxmaxBy (fun r => r._completeness) group
  else if strategy = "Most Recent" then
    idxminBy (fun r => r._recency_rank) group
  else if strategy = "Most Frequent" then
    idxmaxBy (fun r => (r.fields.countP (fun v => v.isSome) : ℤ)) group
  else if strategy = "Source Priority" then
    match firstIdxWhere (fun c =>
        src_keywords.any (fun kw => charsInfixOf kw.data (pyLower c).data)) cols with
    | some j => idxminStrAt j group
    | none => idxmaxBy (fun r => r._completeness) group
  else
    group.head?.map (fun r => r.idx)

/-- Sorted insertion for the ascending group-key order of
`groupby(sort=True)`. -/
def insertSortedStr (x : String) : List String → List String
  | [] => [x]
  | y :: ys => if x ≤ y then x :: y :: ys else y :: insertSortedStr x ys

/-- The distinct group keys in the sorted order `groupby` iterates them. -/
def sortedKeys (l : List String) : List String :=
  (firstOccs l).foldr insertSortedStr []

/-- The rows of one duplicate group (`groupby` restricted to one key). -/
def group_of (dup_only : List DupRow) (g : String) : List DupRow :=
  dup_only.filter (fun r => r._dup_group_id = some g)

/-- `build_golden_records_df` (lines 424–445): non-duplicate rows pass into
the golden set; every duplicate group contributes its surviving row to the
golden set and the rest to the discard set.  A `Source Priority` run over a
group whose source column is all-null makes `identify_golden_record` raise
inside the loop, so the whole call fails: modelled as `none` (the guard is
checked up front; the unreachable `none` arms mirror the `golden_idx == -1:
continue` branch, which no `groupby`-produced, hence non-empty, group takes). -/
def build_golden_records_df (cols : List String) (strategy : String)
    (dup_df : List DupRow) : Option (List DupRow × List DupRow) :=
  let non_dup := dup_df.filter (fun r => !r._is_duplicate)
  let dup_only := dup_df.filter (fun r => r._is_duplicate)
  let keys := sortedKeys (dup_only.filterMap (fun r => r._dup_group_id))
  if keys.all (fun g =>
      (identify_golden_record cols (group_of dup_only g) strategy).isSome) then
    some
      (non_dup ++ keys.flatMap (fun g =>
        match identify_golden_record cols (group_of dup_only g) strategy with
        | some i => (group_of dup_only g).filter (fun r => r.idx = i)
        | none => []),
      keys.flatMap (fun g =>
        match identify_golden_record cols (group_of dup_only g) strategy with
        | some i => (group_of dup_only g).filter (fun r => !decide (r.idx = i))
        | none => []))
  else none

theorem foldl_pick_mem (f : DupRow → DupRow → DupRow)
    (hf : ∀ a b, f a b = a ∨ f a b = b) (r : DupRow) (rs : List DupRow) :
    rs.foldl f r ∈ r :: rs := by
  induction rs generalizing r with
  | nil => exact List.mem_singleton.mpr rfl
  | cons x xs ih =>
    rw [List.foldl_cons]
    have hmem := ih (f r x)
    rcases List.mem_cons.mp hmem with he | hxs
    · rcases hf r x with h1 | h1
      · rw [he, h1]; exact List.mem_cons_self r (x :: xs)
      · rw [he, h1]
        exact List.mem_cons_of_mem r (List.mem_cons_self x xs)
    · exact List.mem_cons_of_mem r (List.mem_cons_of_mem x hxs)

theorem idxmaxBy_mem {β : Type} [LinearOrder β] (key : DupRow → β)
    (group : List DupRow) (i : Nat) (h : idxmaxBy key group = some i) :
    ∃ r ∈ group, r.idx = i := by
  cases group with
  | nil => exact absurd h (by simp [idxmaxBy])
  | cons r rs =>
    unfold idxmaxBy at h
    have hmem := foldl_pick_mem (fun best x => if key best < key x then x else best)
      (fun a b => by by_cases hc : key a < key b <;> simp [hc]) r rs
    refine ⟨_, hmem, ?_⟩
    exact Option.some_injective _ h

theorem idxminBy_mem {β : Type} [LinearOrder β] (key : DupRow → β)
    (group : List DupRow) (i : Nat) (h : idxminBy key group = some i) :
    ∃ r ∈ group, r.idx = i := by
  cases group with
  | nil => exact absurd h (by simp [idxminBy])
  | cons r rs =>
    unfold idxminBy at h
    have hmem := foldl_pick_mem (fun best x => if key x < key best then x else best)
      (fun a b => by by_cases hc : key b < key a <;> simp [hc]) r rs
    refine ⟨_, hmem, ?_⟩
    exact Option.some_injective _ h

theorem idxminStrAt_mem (j : Nat) (group : List DupRow) (i : Nat)
    (h : idxminStrAt j group = some i) : ∃ r ∈ group, r.idx = i := by
  unfold idxminStrAt at h
  rcases hf : group.filter (fun r => (r.fields.getD j none).isSome) with _ | ⟨r, rs⟩
  · rw [hf] at h; exact absurd h (by simp)
  · rw [hf] at h
    have hmem := foldl_pick_mem (fun best x =>
        if (x.fields.getD j none).getD "" < (best.fields.getD j none).getD "" then x
        else best)
      (fun a b => by
        by_cases hc : (b.fields.getD j none).getD "" < (a.fields.getD j none).getD ""
        · exact Or.inr (if_pos hc)
        · exact Or.inl (if_neg hc)) r rs
    have hsub : (rs.foldl (fun best x =>
        if (x.fields.getD j none).getD "" < (best.fields.getD j none).getD "" then x
        else best) r) ∈ group := by
      have : (rs.foldl (fun best x =>
          if (x.fields.getD j none).getD "" < (best.fields.getD j none).getD "" then x
          else best) r) ∈ group.filter (fun r => (r.fields.getD j none).isSome) := by
        rw [hf]; exact hmem
      exact List.mem_of_mem_filter this
    refine ⟨_, hsub, ?_⟩
    exact Option.some_injective _ h

/-- A surviving index returned by `identify_golden_record` is the label of a
member of the group, for every strategy. -/
theorem identify_golden_record_mem (cols : List String) (group : List DupRow)
    (strategy : String) (i : Nat)
    (h : identify_golden_record cols group strategy = some i) :
    ∃ r ∈ group, r.idx = i := by
  unfold identify_golden_record at h
  by_cases h0 : group = []
  · rw [if_pos h0] at h; exact absurd h (by simp)
  rw [if_neg h0] at h
  by_cases h1 : strategy = "Most Complete"
  · rw [if_pos h1] at h; exact idxmaxBy_mem _ group i h
  rw [if_neg h1] at h
  by_cases h2 : strategy = "Most Recent"
  · rw [if_pos h2] at h; exact idxminBy_mem _ group i h
  rw [if_neg h2] at h
  by_cases h3 : strategy = "Most Frequent"
  · rw [if_pos h3] at h; exact idxmaxBy_mem _ group i h
  rw [if_neg h3] at h
  by_cases h4 : strategy = "Source Priority"
  · rw [if_pos h4] at h
    rcases hj : firstIdxWhere (fun c =>
        src_keywords.any (fun kw => charsInfixOf kw.data (pyLower c).data)) cols with
        _ | j
    · rw [hj] at h; exact idxmaxBy_mem _ group i h
    · rw [hj] at h; exact idxminStrAt_mem j group i h
  rw [if_neg h4] at h
  cases group with
  | nil => exact absurd rfl h0
  | cons r rs =>
    refine ⟨r, List.mem_cons_self r rs, ?_⟩
    simp only [List.head?] at h
    exact Option.some_injective _ h

theorem perm_insertSortedStr (x : String) (l : List String) :
    List.Perm (insertSortedStr x l) (x :: l) := by
  induction l with
  | nil => rfl
  | cons y ys ih =>
    unfold insertSortedStr
    by_cases h : x ≤ y
    · rw [if_pos h]
    · rw [if_neg h]
      exact (ih.cons y).trans (List.Perm.swap x y ys)

theorem perm_sortedKeys (l : List String) :
    List.Perm (sortedKeys l) (firstOccs l) := by
  unfold sortedKeys
  induction firstOccs l with
  | nil => rfl
  | cons x xs ih =>
    simp only [List.foldr_cons]
    exact (perm_insertSortedStr x _).trans (ih.cons x)

theorem nodup_sortedKeys (l : List String) : (sortedKeys l).Nodup :=
  (perm_sortedKeys l).nodup_iff.mpr (nodup_firstOccs l)

theorem mem_sortedKeys (l : List String) (k : String) :
    k ∈ sortedKeys l ↔ k ∈ l := by
  rw [(perm_sortedKeys l).mem_iff, mem_firstOccs]

theorem flatMap_congr_of_mem {α β : Type} (ks : List α) (f h : α → List β)
    (he : ∀ g ∈ ks, f g = h g) : ks.flatMap f = ks.flatMap h := by
  induction ks with
  | nil => rfl
  | cons k ks ih =>
    simp only [List.flatMap_cons]
    rw [he k (List.mem_cons_self k ks),
      ih (fun g hg => he g (List.mem_cons_of_mem k hg))]

theorem perm_flatMap_append {α β : Type} (ks : List α) (f h : α → List β) :
    List.Perm (ks.flatMap f ++ ks.flatMap h) (ks.flatMap (fun g => f g ++ h g)) := by
  induction ks with
  | nil => rfl
  | cons k ks ih =>
    simp only [List.flatMap_cons]
    have h1 : List.Perm ((f k ++ ks.flatMap f) ++ (h k ++ ks.flatMap h))
        (f k ++ (h k ++ (ks.flatMap f ++ ks.flatMap h))) := by
      rw [List.append_assoc]
      refine List.Perm.append_left (f k) ?_
      rw [← List.append_assoc, ← List.append_assoc]
      exact List.Perm.append_right (ks.flatMap h) List.perm_append_comm
    refine h1.trans ?_
    rw [List.append_assoc]
    exact List.Perm.append_left (f k) (List.Perm.append_left (h k) ih)

theorem flatMap_perm_of_pointwise {α β : Type} (ks : List α) (f h : α → List β)
    (hp : ∀ g ∈ ks, List.Perm (f g) (h g)) :
    List.Perm (ks.flatMap f) (ks.flatMap h) := by
  induction ks with
  | nil => rfl
  | cons k ks ih =>
    simp only [List.flatMap_cons]
    exact (hp k (List.mem_cons_self k ks)).append
      (ih (fun g hg => hp g (List.mem_cons_of_mem k hg)))

theorem countP_flatMap {α β : Type} (p : β → Bool) (f : α → List β) (ks : List α) :
    (ks.flatMap f).countP p = (ks.map (fun g => (f g).countP p)).sum := by
  induction ks with
  | nil => rfl
  | cons k ks ih =>
    simp only [List.flatMap_cons, List.map_cons, List.sum_cons, List.countP_append, ih]

theorem sum_single_key (ks : List String) (g0 : String) (f : String → Nat)
    (hnd : ks.Nodup) (hg0 : g0 ∈ ks) (hval : f g0 = 1)
    (hzero : ∀ g ∈ ks, g ≠ g0 → f g = 0) : (ks.map f).sum = 1 := by
  induction ks with
  | nil => exact absurd hg0 (List.not_mem_nil g0)
  | cons k ks ih =>
    rw [List.nodup_cons] at hnd
    simp only [List.map_cons, List.sum_cons]
    by_cases hk : k = g0
    · subst hk
      have hsum : (ks.map f).sum = 0 := by
        rw [List.sum_eq_zero]
        intro x hx
        rw [List.mem_map] at hx
        obtain ⟨g, hg, rfl⟩ := hx
        exact hzero g (List.mem_cons_of_mem k hg) (fun he => hnd.1 (he ▸ hg))
      rw [hval, hsum]
    · have hg0ks : g0 ∈ ks := by
        rcases List.mem_cons.mp hg0 with he | h
        · exact absurd he.symm hk
        · exact h
      rw [hzero k (List.mem_cons_self k ks) hk,
        ih hnd.2 hg0ks (fun g hg hne => hzero g (List.mem_cons_of_mem k hg) hne)]

theorem filter_idx_length_one (l : List DupRow) (i : Nat)
    (hnd : (l.map (fun r => r.idx)).Nodup) (r0 : DupRow) (hr0 : r0 ∈ l)
    (hi : r0.idx = i) : (l.filter (fun r => r.idx = i)).length = 1 := by
  induction l with
  | nil => exact absurd hr0 (List.not_mem_nil r0)
  | cons x xs ih =>
    rw [List.map_cons, List.nodup_cons] at hnd
    by_cases hx : x.idx = i
    · rw [List.filter_cons_of_pos (by simpa using hx)]
      have hnil : xs.filter (fun r => r.idx = i) = [] := by
        rw [List.filter_eq_nil_iff]
        intro r hr
        simp only [decide_eq_true_eq]
        intro hri
        exact hnd.1 (by
          rw [List.mem_map]
          exact ⟨r, hr, by rw [hri, hx]⟩)
      rw [hnil]
      rfl
    · rw [List.filter_cons_of_neg (by simpa using hx)]
      rcases List.mem_cons.mp hr0 with rfl | hr0xs
      · exact absurd hi hx
      · exact ih hnd.2 hr0xs

theorem perm_flatMap_group_of (ks : List String) (l : List DupRow)
    (hnd : ks.Nodup)
    (hcover : ∀ r ∈ l, ∃ g ∈ ks, r._dup_group_id = some g) :
    List.Perm (ks.flatMap (fun g =>
      l.filter (fun r => r._dup_group_id = some g))) l := by
  induction ks generalizing l with
  | nil =>
    cases l with
    | nil => rfl
    | cons r rs =>
      obtain ⟨g, hg, _⟩ := hcover r (List.mem_cons_self r rs)
      exact absurd hg (List.not_mem_nil g)
  | cons k ks ih =>
    rw [List.nodup_cons] at hnd
    simp only [List.flatMap_cons]
    have hstep : ∀ g ∈ ks,
        l.filter (fun r => r._dup_group_id = some g) =
          (l.filter (fun r => !decide (r._dup_group_id = some k))).filter
            (fun r => r._dup_group_id = some g) := by
      intro g hg
      rw [List.filter_filter]
      refine (List.filter_congr ?_).symm
      intro r _
      by_cases hr : r._dup_group_id = some g
      · have hgk : ¬ g = k := fun he => hnd.1 (he ▸ hg)
        have hne : ¬ r._dup_group_id = some k := by
          rw [hr]
          intro he
          exact hgk (Option.some_injective _ he)
        simp [hr, hne, hgk]
      · simp [hr]
    have hcover' : ∀ r ∈ l.filter (fun r => !decide (r._dup_group_id = some k)),
        ∃ g ∈ ks, r._dup_group_id = some g := by
      intro r hr
      rw [List.mem_filter] at hr
      obtain ⟨g, hg, hrg⟩ := hcover r hr.1
      rcases List.mem_cons.mp hg with rfl | hgks
      · exact absurd hrg (by simpa using hr.2)
      · exact ⟨g, hgks, hrg⟩
    rw [flatMap_congr_of_mem ks _ _ hstep]
    refine List.Perm.trans
      (List.Perm.append_left _ (ih _ hnd.2 hcover')) ?_
    exact List.filter_append_perm _ l

/-- C3: whenever `build_golden_records_df` returns (no strategy evaluation
raised), the golden and discard sets partition the duplicate-annotated
dataset: together they contain every row of the input exactly once, they are
disjoint, every non-duplicate row is in the golden set, and each duplicate
group contributes exactly one row to the golden set.  The hypotheses are the
invariants `detect_duplicates` establishes on its output: distinct index
labels (default `RangeIndex`) and a group id on every duplicate row. -/
theorem C3_golden_discard_partition (cols : List String) (strategy : String)
    (dup_df golden discards : List DupRow)
    (hnodup : (dup_df.map (fun r => r.idx)).Nodup)
    (hgid : ∀ r ∈ dup_df, r._is_duplicate = true → (r._dup_group_id).isSome)
    (hsome : build_golden_records_df cols strategy dup_df =
      some (golden, discards)) :
    List.Perm (golden ++ discards) dup_df ∧
    (∀ r ∈ dup_df, r._is_duplicate = false → r ∈ golden) ∧
    (∀ r ∈ golden, r ∉ discards) ∧
    (∀ g0 : String,
      (∃ r ∈ dup_df, r._is_duplicate = true ∧ r._dup_group_id = some g0) →
      golden.countP
        (fun r => r._is_duplicate && r._dup_group_id = some g0) = 1) := by
  simp only [build_golden_records_df] at hsome
  split at hsome
  case isFalse => exact Option.noConfusion hsome
  case isTrue hall =>
  rw [Option.some.injEq, Prod.mk.injEq] at hsome
  obtain ⟨hA, hB⟩ := hsome
  subst hA
  subst hB
  set du := dup_df.filter (fun r => r._is_duplicate) with hdu
  set nd := dup_df.filter (fun r => !r._is_duplicate) with hndd
  set ks := sortedKeys (du.filterMap (fun r => r._dup_group_id)) with hks
  have hksnd : ks.Nodup := by rw [hks]; exact nodup_sortedKeys _
  have hcover : ∀ r ∈ du, ∃ g ∈ ks, r._dup_group_id = some g := by
    intro r hr
    obtain ⟨hr1, hr2⟩ := List.mem_filter.mp hr
    have hs := hgid r hr1 hr2
    obtain ⟨g, hg⟩ := Option.isSome_iff_exists.mp hs
    refine ⟨g, ?_, hg⟩
    rw [hks, mem_sortedKeys, List.mem_filterMap]
    exact ⟨r, hr, hg⟩
  have hpick : ∀ g ∈ ks,
      ∃ i, identify_golden_record cols (group_of du g) strategy = some i := by
    intro g hg
    have := (List.all_eq_true.mp hall) g hg
    exact Option.isSome_iff_exists.mp this
  have hgrpperm : ∀ g ∈ ks,
      List.Perm
        ((match identify_golden_record cols (group_of du g) strategy with
          | some i => (group_of du g).filter (fun r => r.idx = i)
          | none => []) ++
         (match identify_golden_record cols (group_of du g) strategy with
          | some i => (group_of du g).filter (fun r => !decide (r.idx = i))
          | none => []))
        (group_of du g) := by
    intro g hg
    obtain ⟨i, hi⟩ := hpick g hg
    rw [hi]
    exact List.filter_append_perm _ (group_of du g)
  have hGD : List.Perm
      (ks.flatMap (fun g =>
        match identify_golden_record cols (group_of du g) strategy with
        | some i => (group_of du g).filter (fun r => r.idx = i)
        | none => []) ++
       ks.flatMap (fun g =>
        match identify_golden_record cols (group_of du g) strategy with
        | some i => (group_of du g).filter (fun r => !decide (r.idx = i))
        | none => []))
      du := by
    refine (perm_flatMap_append ks _ _).trans ?_
    refine (flatMap_perm_of_pointwise ks _ (fun g => group_of du g) hgrpperm).trans ?_
    have := perm_flatMap_group_of ks du hksnd hcover
    simpa [group_of] using this
  have hmain : List.Perm
      ((nd ++ ks.flatMap (fun g =>
        match identify_golden_record cols (group_of du g) strategy with
        | some i => (group_of du g).filter (fun r => r.idx = i)
        | none => [])) ++
       ks.flatMap (fun g =>
        match identify_golden_record cols (group_of du g) strategy with
        | some i => (group_of du g).filter (fun r => !decide (r.idx = i))
        | none => []))
      dup_df := by
    rw [List.append_assoc]
    refine (List.Perm.append_left nd hGD).trans ?_
    refine List.Perm.trans List.perm_append_comm ?_
    exact List.filter_append_perm (fun r => r._is_duplicate) dup_df
  refine ⟨hmain, ?_, ?_, ?_⟩
  · intro r hr hrf
    refine List.mem_append.mpr (Or.inl ?_)
    rw [hndd]
    exact List.mem_filter.mpr ⟨hr, by simp [hrf]⟩
  · have hmapnd : (((nd ++ ks.flatMap (fun g =>
        match identify_golden_record cols (group_of du g) strategy with
        | some i => (group_of du g).filter (fun r => r.idx = i)
        | none => [])) ++
       ks.flatMap (fun g =>
        match identify_golden_record cols (group_of du g) strategy with
        | some i => (group_of du g).filter (fun r => !decide (r.idx = i))
        | none => [])).map (fun r => r.idx)).Nodup :=
      ((hmain.map (fun r => r.idx)).nodup_iff).mpr hnodup
    rw [List.map_append, List.nodup_append] at hmapnd
    intro r hrg hrd
    exact hmapnd.2.2 (List.mem_map.mpr ⟨r, hrg, rfl⟩)
      (List.mem_map.mpr ⟨r, hrd, rfl⟩)
  · rintro g0 ⟨r0, hr0, hr0dup, hr0gid⟩
    have hr0du : r0 ∈ du := by
      rw [hdu]
      exact List.mem_filter.mpr ⟨hr0, by simp [hr0dup]⟩
    have hg0ks : g0 ∈ ks := by
      rw [hks, mem_sortedKeys, List.mem_filterMap]
      exact ⟨r0, hr0du, hr0gid⟩
    rw [List.countP_append]
    have hnd0 : nd.countP
        (fun r => r._is_duplicate && r._dup_group_id = some g0) = 0 := by
      rw [List.countP_eq_zero]
      intro r hr
      obtain ⟨_, hr2⟩ := List.mem_filter.mp hr
      simp only [Bool.not_eq_true'] at hr2
      simp [hr2]
    rw [hnd0, countP_flatMap]
    have hone : (ks.map (fun g =>
        List.countP (fun r : DupRow =>
            r._is_duplicate && r._dup_group_id = some g0)
          (match identify_golden_record cols (group_of du g) strategy with
            | some i => (group_of du g).filter (fun r => r.idx = i)
            | none => []))).sum = 1 := by
      refine sum_single_key ks g0 _ hksnd hg0ks ?_ ?_
      · obtain ⟨i, hi⟩ := hpick g0 hg0ks
        simp only [hi]
        have hlen : ((group_of du g0).filter (fun r => r.idx = i)).length = 1 := by
          obtain ⟨r1, hr1, hr1i⟩ := identify_golden_record_mem cols _ strategy i hi
          refine filter_idx_length_one (group_of du g0) i ?_ r1 hr1 hr1i
          have hsub : List.Sublist (group_of du g0) dup_df := by
            rw [hdu]
            simp only [group_of]
            exact (List.filter_sublist _).trans (List.filter_sublist _)
          exact hnodup.sublist (hsub.map (fun r => r.idx))
        rw [← hlen]
        rw [List.countP_eq_length]
        intro r hr
        obtain ⟨hrg, hri⟩ := List.mem_filter.mp hr
        obtain ⟨hrdu, hrgid⟩ := List.mem_filter.mp hrg
        obtain ⟨_, hrdup⟩ := List.mem_filter.mp hrdu
        simp only [decide_eq_true_eq] at hrgid
        simp [hrdup, hrgid]
      · intro g hg hne
        obtain ⟨i, hi⟩ := hpick g hg
        simp only [hi]
        rw [List.countP_eq_zero]
        intro r hr
        obtain ⟨hrg, _⟩ := List.mem_filter.mp hr
        obtain ⟨_, hrgid⟩ := List.mem_filter.mp hrg
        simp only [decide_eq_true_eq] at hrgid
        simp only [Bool.and_eq_true, decide_eq_true_eq, not_and]
        intro _
        rw [hrgid]
        intro he
        exact hne (Option.some_injective _ he)
    rw [hone]

/-- Concrete duplicate-annotated rows for exercising the survivorship
resolver: one duplicate group of two rows plus one non-duplicate row. -/
def c3r0 : DupRow := ⟨0, [some "x"], some "DG-0001", true, 100, 1⟩

def c3r1 : DupRow := ⟨1, [none], some "DG-0001", true, 0, 2⟩

def c3r2 : DupRow := ⟨2, [some "y"], none, false, 100, 0⟩

theorem C3_golden_discard_partition_witness :
    List.Perm ([c3r2, c3r0] ++ [c3r1]) [c3r0, c3r1, c3r2] ∧
    (∀ r ∈ [c3r0, c3r1, c3r2], r._is_duplicate = false → r ∈ [c3r2, c3r0]) ∧
    (∀ r ∈ [c3r2, c3r0], r ∉ [c3r1]) ∧
    (∀ g0 : String,
      (∃ r ∈ [c3r0, c3r1, c3r2],
        r._is_duplicate = true ∧ r._dup_group_id = some g0) →
      List.countP
        (fun r => r._is_duplicate && r._dup_group_id = some g0)
        [c3r2, c3r0] = 1) :=
  C3_golden_discard_partition ["name"] "Most Complete"
    [c3r0, c3r1, c3r2] [c3r2, c3r0] [c3r1]
    (by decide) (by decide) (by decide)

/-! ## Fuzzy matching phase — `detect_duplicates` lines 301–340

Runs only when `fuzzy=True` and exactly one match column is selected, over
the rows not already claimed by the exact phase (`unassigned`).  An `FRow` is
one such row: its index label, its normalized `_match_key`, and the
annotation columns the phase writes.  The `SequenceMatcher(None, a, b)
.ratio()` similarity is abstracted as a rational-valued function `sim` of the
two keys, which the grouping logic only ever calls with the current seed's
key as first argument. -/

structure FRow where
  idx : Nat
  key : String
  gid : Option String
  isDup : Bool
  dupCount : Nat
  matchType : String
  score : ℚ
deriving DecidableEq, Repr

/-- Line 324: `result.at[idx_b, "_similarity_score"] = round(sim, 3)`. -/
def setScore (st : List FRow) (i : Nat) (v : ℚ) : List FRow :=
  st.map (fun r => if r.idx = i then { r with score := v } else r)

/-- Inner candidate scan (lines 318–324): walk `unassigned`, skip the seed
itself and already-visited rows, and admit a candidate exactly when its key's
similarity *to the seed's key* reaches the threshold, recording the rounded
score at admission time.  Returns the admitted candidates in scan order and
the updated row state. -/
def buildGroupScan (sim : String → String → ℚ) (thr : ℚ) (seedIdx : Nat)
    (seedKey : String) :
    List (Nat × String) → List Nat → List FRow → List Nat × List FRow
  | [], _, st => ([], st)
  | (idx, key) :: rest, visited, st =>
    if idx = seedIdx ∨ idx ∈ visited then
      buildGroupScan sim thr seedIdx seedKey rest visited st
    else if thr ≤ sim seedKey key then
      let res := buildGroupScan sim thr seedIdx seedKey rest visited
        (setScore st idx (round3 (sim seedKey key)))
      (idx :: res.1, res.2)
    else buildGroupScan sim thr seedIdx seedKey rest visited st

/-- Outer seed loop (lines 314–327): each unvisited row seeds a group; a
group is kept only when it has more than one member, and only then are its
members marked visited. -/
def fuzzyPhaseAux (sim : String → String → ℚ) (thr : ℚ)
    (all : List (Nat × String)) :
    List (Nat × String) → List Nat → List FRow →
      List (List Nat) × List FRow
  | [], _, st => ([], st)
  | (idx, key) :: rest, visited, st =>
    if idx ∈ visited then fuzzyPhaseAux sim thr all rest visited st
    else
      let scan := buildGroupScan sim thr idx key all visited st
      let grp := idx :: scan.1
      if 1 < grp.length then
        let res := fuzzyPhaseAux sim thr all rest (visited ++ grp) scan.2
        (grp :: res.1, res.2)
      else fuzzyPhaseAux sim thr all rest visited scan.2

/-- One row's finalization for one kept group (lines 332–338): members get
the group id, duplicate marks, `match_type = "Fuzzy"`, and a similarity score
of 1.0 when it is still 0. -/
def rowFinalize (gid : String) (grp : List Nat) (r : FRow) : FRow :=
  if r.idx ∈ grp then
    { r with gid := some gid, isDup := true, dupCount := grp.length,
             matchType := "Fuzzy",
             score := if r.score = 0 then 1 else r.score }
  else r

/-- Lines 329–338 for one group. -/
def finalizeGroup (gid : String) (grp : List Nat) (st : List FRow) :
    List FRow :=
  st.map (rowFinalize gid grp)

/-- Lines 329–338: number the kept groups `DG-(n)-F`, continuing the
exact-phase group counter `startId`, and finalize each. -/
def applyFuzzyGroups (startId : Nat) (gs : List (List Nat)) (st : List FRow) :
    List FRow :=
  (gs.foldl (fun p grp =>
    (p.1 + 1, finalizeGroup (dupGroupId (p.1 + 1) ++ "-F") grp p.2))
    (startId, st)).2

/-- The cumulative effect of `applyFuzzyGroups` on a single row. -/
def applyToRow (startId : Nat) (gs : List (List Nat)) (r : FRow) : FRow :=
  (gs.foldl (fun p grp =>
    (p.1 + 1, rowFinalize (dupGroupId (p.1 + 1) ++ "-F") grp p.2))
    (startId, r)).2

/-- The kept fuzzy groups of a detection run over the unassigned rows. -/
def fuzzy_groups (sim : String → String → ℚ) (thr : ℚ) (rows : List FRow) :
    List (List Nat) :=
  (fuzzyPhaseAux sim thr (rows.map (fun r => (r.idx, r.key)))
    (rows.map (fun r => (r.idx, r.key))) [] rows).1

/-- The row state after the scans, before group finalization. -/
def fuzzy_prefinal (sim : String → String → ℚ) (thr : ℚ) (rows : List FRow) :
    List FRow :=
  (fuzzyPhaseAux sim thr (rows.map (fun r => (r.idx, r.key)))
    (rows.map (fun r => (r.idx, r.key))) [] rows).2

/-- The whole fuzzy phase: scans, then id assignment and finalization. -/
def fuzzy_phase (sim : String → String → ℚ) (thr : ℚ) (startId : Nat)
    (rows : List FRow) : List FRow :=
  applyFuzzyGroups startId (fuzzy_groups sim thr rows)
    (fuzzy_prefinal sim thr rows)

theorem buildGroupScan_mem (sim : String → String → ℚ) (thr : ℚ)
    (seedIdx : Nat) (seedKey : String) (lst : List (Nat × String))
    (visited : List Nat) (st : List FRow) (m : Nat)
    (hm : m ∈ (buildGroupScan sim thr seedIdx seedKey lst visited st).1) :
    ∃ km, (m, km) ∈ lst ∧ m ≠ seedIdx ∧ m ∉ visited ∧ thr ≤ sim seedKey km := by
  induction lst generalizing st with
  | nil => exact absurd hm (List.not_mem_nil m)
  | cons p rest ih =>
    obtain ⟨idx, key⟩ := p
    unfold buildGroupScan at hm
    by_cases h1 : idx = seedIdx ∨ idx ∈ visited
    · rw [if_pos h1] at hm
      obtain ⟨km, hk1, hk2, hk3, hk4⟩ := ih _ hm
      exact ⟨km, List.mem_cons_of_mem _ hk1, hk2, hk3, hk4⟩
    · rw [if_neg h1] at hm
      by_cases h2 : thr ≤ sim seedKey key
      · rw [if_pos h2] at hm
        simp only at hm
        rcases List.mem_cons.mp hm with rfl | hm'
        · push_neg at h1
          exact ⟨key, List.mem_cons_self _ _, h1.1, h1.2, h2⟩
        · obtain ⟨km, hk1, hk2, hk3, hk4⟩ := ih _ hm'
          exact ⟨km, List.mem_cons_of_mem _ hk1, hk2, hk3, hk4⟩
      · rw [if_neg h2] at hm
        obtain ⟨km, hk1, hk2, hk3, hk4⟩ := ih _ hm
        exact ⟨km, List.mem_cons_of_mem _ hk1, hk2, hk3, hk4⟩

theorem fuzzyPhaseAux_groups (sim : String → String → ℚ) (thr : ℚ)
    (all : List (Nat × String)) (rest : List (Nat × String))
    (visited : List Nat) (st : List FRow) (g : List Nat)
    (hg : g ∈ (fuzzyPhaseAux sim thr all rest visited st).1) :
    ∃ s ks t, g = s :: t ∧ 1 < g.length ∧ (s, ks) ∈ rest ∧
      ∀ m ∈ t, ∃ km, (m, km) ∈ all ∧ m ≠ s ∧ thr ≤ sim ks km := by
  induction rest generalizing visited st with
  | nil => exact absurd hg (List.not_mem_nil g)
  | cons p rest ih =>
    obtain ⟨idx, key⟩ := p
    unfold fuzzyPhaseAux at hg
    by_cases h1 : idx ∈ visited
    · rw [if_pos h1] at hg
      obtain ⟨s, ks, t, ht1, ht2, ht3, ht4⟩ := ih _ _ hg
      exact ⟨s, ks, t, ht1, ht2, List.mem_cons_of_mem _ ht3, ht4⟩
    · rw [if_neg h1] at hg
      by_cases h2 : 1 <
          (idx :: (buildGroupScan sim thr idx key all visited st).1).length
      · rw [if_pos h2] at hg
        simp only at hg
        rcases List.mem_cons.mp hg with rfl | hg'
        · refine ⟨idx, key, (buildGroupScan sim thr idx key all visited st).1,
            rfl, h2, List.mem_cons_self _ _, ?_⟩
          intro m hm
          obtain ⟨km, hk1, hk2, _, hk4⟩ :=
            buildGroupScan_mem sim thr idx key all visited st m hm
          exact ⟨km, hk1, hk2, hk4⟩
        · obtain ⟨s, ks, t, ht1, ht2, ht3, ht4⟩ := ih _ _ hg'
          exact ⟨s, ks, t, ht1, ht2, List.mem_cons_of_mem _ ht3, ht4⟩
      · rw [if_neg h2] at hg
        obtain ⟨s, ks, t, ht1, ht2, ht3, ht4⟩ := ih _ _ hg
        exact ⟨s, ks, t, ht1, ht2, List.mem_cons_of_mem _ ht3, ht4⟩

theorem applyFuzzyGroups_eq_map (startId : Nat) (gs : List (List Nat))
    (st : List FRow) :
    applyFuzzyGroups startId gs st = st.map (applyToRow startId gs) := by
  induction gs generalizing startId st with
  | nil =>
    unfold applyFuzzyGroups applyToRow
    simp only [List.foldl_nil]
    exact (List.map_id'' (fun _ => rfl) st).symm
  | cons g gs ih =>
    have hL : applyFuzzyGroups startId (g :: gs) st =
        applyFuzzyGroups (startId + 1) gs
          (finalizeGroup (dupGroupId (startId + 1) ++ "-F") g st) := rfl
    rw [hL, ih]
    unfold finalizeGroup
    rw [List.map_map]
    congr 1

theorem applyToRow_pres (gs : List (List Nat)) (startId : Nat) (r : FRow)
    (h1 : r.matchType = "Fuzzy") (h2 : r.isDup = true)
    (h3 : ∃ n, r.gid = some (dupGroupId n ++ "-F")) (h4 : r.score ≠ 0) :
    (applyToRow startId gs r).matchType = "Fuzzy" ∧
    (applyToRow startId gs r).isDup = true ∧
    (∃ n, (applyToRow startId gs r).gid = some (dupGroupId n ++ "-F")) ∧
    (applyToRow startId gs r).score = r.score := by
  induction gs generalizing startId r with
  | nil => exact ⟨h1, h2, h3, rfl⟩
  | cons g gs ih =>
    have hstep : applyToRow startId (g :: gs) r =
        applyToRow (startId + 1) gs
          (rowFinalize (dupGroupId (startId + 1) ++ "-F") g r) := rfl
    rw [hstep]
    by_cases hin : r.idx ∈ g
    · have hr1 : rowFinalize (dupGroupId (startId + 1) ++ "-F") g r =
          { r with gid := some (dupGroupId (startId + 1) ++ "-F"),
                   isDup := true, dupCount := g.length, matchType := "Fuzzy",
                   score := if r.score = 0 then 1 else r.score } := by
        unfold rowFinalize
        rw [if_pos hin]
      rw [hr1]
      have hsc : (if r.score = 0 then (1 : ℚ) else r.score) = r.score := by
        rw [if_neg h4]
      obtain ⟨hA, hB, hC, hD⟩ := ih (startId + 1)
        { r with gid := some (dupGroupId (startId + 1) ++ "-F"),
                 isDup := true, dupCount := g.length, matchType := "Fuzzy",
                 score := if r.score = 0 then 1 else r.score }
        rfl rfl ⟨startId + 1, rfl⟩ (by simp only [hsc]; exact h4)
      refine ⟨hA, hB, hC, ?_⟩
      rw [hD]
      exact hsc
    · have hr1 : rowFinalize (dupGroupId (startId + 1) ++ "-F") g r = r := by
        unfold rowFinalize
        rw [if_neg hin]
      rw [hr1]
      exact ih (startId + 1) r h1 h2 h3 h4

theorem applyToRow_hit (gs : List (List Nat)) (startId : Nat) (r : FRow)
    (h : ∃ g ∈ gs, r.idx ∈ g) :
    (applyToRow startId gs r).matchType = "Fuzzy" ∧
    (applyToRow startId gs r).isDup = true ∧
    (∃ n, (applyToRow startId gs r).gid = some (dupGroupId n ++ "-F")) ∧
    (r.score = 0 → (applyToRow startId gs r).score = 1) ∧
    (r.score ≠ 0 → (applyToRow startId gs r).score = r.score) := by
  induction gs generalizing startId r with
  | nil =>
    obtain ⟨g, hg, _⟩ := h
    exact absurd hg (List.not_mem_nil g)
  | cons g gs ih =>
    have hstep : applyToRow startId (g :: gs) r =
        applyToRow (startId + 1) gs
          (rowFinalize (dupGroupId (startId + 1) ++ "-F") g r) := rfl
    rw [hstep]
    by_cases hin : r.idx ∈ g
    · have hr1 : rowFinalize (dupGroupId (startId + 1) ++ "-F") g r =
          { r with gid := some (dupGroupId (startId + 1) ++ "-F"),
                   isDup := true, dupCount := g.length, matchType := "Fuzzy",
                   score := if r.score = 0 then 1 else r.score } := by
        unfold rowFinalize
        rw [if_pos hin]
      rw [hr1]
      have hne : (if r.score = 0 then (1 : ℚ) else r.score) ≠ 0 := by
        by_cases hz : r.score = 0
        · rw [if_pos hz]; exact one_ne_zero
        · rw [if_neg hz]; exact hz
      obtain ⟨hA, hB, hC, hD⟩ := applyToRow_pres gs (startId + 1)
        { r with gid := some (dupGroupId (startId + 1) ++ "-F"),
                 isDup := true, dupCount := g.length, matchType := "Fuzzy",
                 score := if r.score = 0 then 1 else r.score }
        rfl rfl ⟨startId + 1, rfl⟩ hne
      refine ⟨hA, hB, hC, ?_, ?_⟩
      · intro hz
        rw [hD]
        simp only [if_pos hz]
      · intro hz
        rw [hD]
        simp only [if_neg hz]
    · have hr1 : rowFinalize (dupGroupId (startId + 1) ++ "-F") g r = r := by
        unfold rowFinalize
        rw [if_neg hin]
      rw [hr1]
      refine ih (startId + 1) r ?_
      obtain ⟨g', hg', hrin⟩ := h
      rcases List.mem_cons.mp hg' with rfl | hg's
      · exact absurd hrin hin
      · exact ⟨g', hg's, hrin⟩

theorem applyToRow_skip (gs : List (List Nat)) (startId : Nat) (r : FRow)
    (h : ∀ g ∈ gs, r.idx ∉ g) : applyToRow startId gs r = r := by
  induction gs generalizing startId with
  | nil => rfl
  | cons g gs ih =>
    have hstep : applyToRow startId (g :: gs) r =
        applyToRow (startId + 1) gs
          (rowFinalize (dupGroupId (startId + 1) ++ "-F") g r) := rfl
    rw [hstep]
    have hr1 : rowFinalize (dupGroupId (startId + 1) ++ "-F") g r = r := by
      unfold rowFinalize
      rw [if_neg (h g (List.mem_cons_self g gs))]
    rw [hr1]
    exact ih (startId + 1) (fun g' hg' => h g' (List.mem_cons_of_mem g hg'))

/-- A similarity function under which `a` and `b` each match the seed key `s`
but not one another — exhibiting that admission never compares candidates
pairwise. -/
def c6demo_sim : String → String → ℚ :=
  fun a b => if a = "s" ∨ b = "s" then 1 else 0

/-- Three unassigned rows whose keys are `s`, `a`, `b`. -/
def c6demo_rows : List FRow :=
  [⟨0, "s", none, false, 0, "", 0⟩, ⟨1, "a", none, false, 0, "", 0⟩,
   ⟨2, "b", none, false, 0, "", 0⟩]

/-- C6: in the fuzzy phase (one match column, `fuzzy=True`), every kept group
consists of a seed plus candidates admitted solely by comparing their key
against the seed row's key (similarity ≥ threshold) — never pairwise against
previously admitted members, as the last conjunct exhibits on a similarity
function where two co-members are entirely dissimilar to each other; only
groups of size ≥ 2 are kept, and exactly their members are finalized with an
id of the form `DG-NNNN-F` and `match_type = "Fuzzy"`, with any member whose
similarity score is still 0 at finalization (the seed in particular) set to
1.0, while rows in no kept group are left untouched. -/
theorem C6_fuzzy_phase_seed_groups (sim : String → String → ℚ) (thr : ℚ)
    (startId : Nat) (rows : List FRow)
    (hnodup : (rows.map (fun r => r.idx)).Nodup) :
    (∀ g ∈ fuzzy_groups sim thr rows, ∃ s t, g = s :: t ∧ 2 ≤ g.length ∧
      ∀ m ∈ t, ∀ rs rm, rs ∈ rows → rm ∈ rows → rs.idx = s → rm.idx = m →
        thr ≤ sim rs.key rm.key) ∧
    fuzzy_phase sim thr startId rows =
      (fuzzy_prefinal sim thr rows).map
        (applyToRow startId (fuzzy_groups sim thr rows)) ∧
    (∀ r ∈ fuzzy_prefinal sim thr rows,
      (∃ g ∈ fuzzy_groups sim thr rows, r.idx ∈ g) →
      (applyToRow startId (fuzzy_groups sim thr rows) r).matchType = "Fuzzy" ∧
      (applyToRow startId (fuzzy_groups sim thr rows) r).isDup = true ∧
      (∃ n, (applyToRow startId (fuzzy_groups sim thr rows) r).gid =
        some (dupGroupId n ++ "-F")) ∧
      (r.score = 0 →
        (applyToRow startId (fuzzy_groups sim thr rows) r).score = 1) ∧
      (r.score ≠ 0 →
        (applyToRow startId (fuzzy_groups sim thr rows) r).score = r.score)) ∧
    (∀ r ∈ fuzzy_prefinal sim thr rows,
      (∀ g ∈ fuzzy_groups sim thr rows, r.idx ∉ g) →
      applyToRow startId (fuzzy_groups sim thr rows) r = r) ∧
    (∃ g ∈ fuzzy_groups c6demo_sim 1 c6demo_rows,
      1 ∈ g ∧ 2 ∈ g ∧ c6demo_sim "a" "b" < 1) := by
  refine ⟨?_, ?_, ?_, ?_, ?_⟩
  · intro g hg
    unfold fuzzy_groups at hg
    obtain ⟨s, ks, t, ht1, ht2, hs, hmem⟩ :=
      fuzzyPhaseAux_groups sim thr _ _ _ _ g hg
    refine ⟨s, t, ht1, by omega, ?_⟩
    intro m hm rs rm hrs hrm hrsi hrmi
    obtain ⟨km, hkm, _, hsim⟩ := hmem m hm
    rw [List.mem_map] at hkm hs
    obtain ⟨rm', hrm', hrm'e⟩ := hkm
    obtain ⟨rs', hrs', hrs'e⟩ := hs
    have hrmeq : rm = rm' := by
      refine List.inj_on_of_nodup_map hnodup hrm hrm' ?_
      have h1 : rm'.idx = m := congrArg Prod.fst hrm'e
      rw [hrmi, h1]
    have hrseq : rs = rs' := by
      refine List.inj_on_of_nodup_map hnodup hrs hrs' ?_
      have h1 : rs'.idx = s := congrArg Prod.fst hrs'e
      rw [hrsi, h1]
    have hk1 : rm.key = km := by
      rw [hrmeq]
      exact congrArg Prod.snd hrm'e
    have hk2 : rs.key = ks := by
      rw [hrseq]
      exact congrArg Prod.snd hrs'e
    rw [hk1, hk2]
    exact hsim
  · exact applyFuzzyGroups_eq_map startId _ _
  · intro r _ hhit
    exact applyToRow_hit _ startId r hhit
  · intro r _ hskip
    exact applyToRow_skip _ startId r hskip
  · decide

theorem C6_fuzzy_phase_seed_groups_witness :
    (∀ g ∈ fuzzy_groups c6demo_sim 1 c6demo_rows, ∃ s t, g = s :: t ∧
      2 ≤ g.length ∧
      ∀ m ∈ t, ∀ rs rm, rs ∈ c6demo_rows → rm ∈ c6demo_rows →
        rs.idx = s → rm.idx = m → (1 : ℚ) ≤ c6demo_sim rs.key rm.key) ∧
    fuzzy_phase c6demo_sim 1 0 c6demo_rows =
      (fuzzy_prefinal c6demo_sim 1 c6demo_rows).map
        (applyToRow 0 (fuzzy_groups c6demo_sim 1 c6demo_rows)) ∧
    (∀ r ∈ fuzzy_prefinal c6demo_sim 1 c6demo_rows,
      (∃ g ∈ fuzzy_groups c6demo_sim 1 c6demo_rows, r.idx ∈ g) →
      (applyToRow 0 (fuzzy_groups c6demo_sim 1 c6demo_rows) r).matchType =
        "Fuzzy" ∧
      (applyToRow 0 (fuzzy_groups c6demo_sim 1 c6demo_rows) r).isDup =
        true ∧
      (∃ n, (applyToRow 0 (fuzzy_groups c6demo_sim 1 c6demo_rows) r).gid =
        some (dupGroupId n ++ "-F")) ∧
      (r.score = 0 →
        (applyToRow 0 (fuzzy_groups c6demo_sim 1 c6demo_rows) r).score =
          1) ∧
      (r.score ≠ 0 →
        (applyToRow 0 (fuzzy_groups c6demo_sim 1 c6demo_rows) r).score =
          r.score)) ∧
    (∀ r ∈ fuzzy_prefinal c6demo_sim 1 c6demo_rows,
      (∀ g ∈ fuzzy_groups c6demo_sim 1 c6demo_rows, r.idx ∉ g) →
      applyToRow 0 (fuzzy_groups c6demo_sim 1 c6demo_rows) r = r) ∧
    (∃ g ∈ fuzzy_groups c6demo_sim 1 c6demo_rows,
      1 ∈ g ∧ 2 ∈ g ∧ c6demo_sim "a" "b" < 1) :=
  C6_fuzzy_phase_seed_groups c6demo_sim 1 0 c6demo_rows (by decide)
